import Mathlib

/-!
# Verification of the blinkt-k8s-controller resource tracker and display synchronizer

Shallow embedding of `src/controller/controller.go`: the resource record type,
the three informer event handlers (`AddFunc`, `UpdateFunc`, `DeleteFunc`),
the key lookup (`getResource`), and the render pass (`updateBlinkt`).

Modelling choices:
  * A `resource` is `{key, color : String, state : RState}` exactly as in the Go
    struct; the Go `iota` state constants `added/updated/deleted/unchanged`
    become the constructors of `RState`.
  * The controller's `resourceList []resource` becomes `List Resource`;
    the mutex serializes every handler, so each handler is a pure function
    `List Resource → List Resource × List DispOp`.
  * The Go `brightness float64` is only ever forwarded to the display driver,
    never computed with, so it is embedded as an abstract rational `b : ℚ`.
  * Display driver calls (`blinkt.Flash`, `blinkt.Set`, `blinkt.Show`) are
    recorded as a trace of `DispOp` values; the frame of a render is that trace.
  * A Go nil-pointer dereference after a failed `getResource` lookup (a panic
    that crashes the process) is embedded as `Option.none`.
-/

/-- The four resource states of the Go `iota` block:
`added`, `updated`, `deleted`, `unchanged`. -/
inductive RState where
  | added : RState
  | updated : RState
  | deleted : RState
  | unchanged : RState
deriving DecidableEq, Repr

/-- The Go struct `resource {key, color string; state int}`. -/
structure Resource where
  key : String
  color : String
  state : RState
deriving DecidableEq, Repr

/-- The `blinkt.Off` color constant of the display driver library
(an all-zero hex color string). -/
def Off : String := "000000"

/-- One call into the display driver: `Flash(slot, color, brightness, times,
intervalMs)`, `Set(slot, color, brightness)` or `Show()`. -/
inductive DispOp where
  | Flash : Nat → String → ℚ → Nat → Nat → DispOp
  | Set : Nat → String → ℚ → DispOp
  | Show : DispOp
deriving DecidableEq, Repr

/-- The main loop of `updateBlinkt` (controller.go lines 134-157): walk the
resource list with index `i`; `added`/`updated` records flash then set slot `i`
(when `i < 8`) and become `unchanged`; `deleted` records flash slot `i` (when
`i < 8`) and are removed without advancing `i` (`i--` after the splice);
`unchanged` records set slot `i` (when `i < 8`).  Returns the resulting list,
the display-op trace, and the final value of `i`. -/
def walk (b : ℚ) : Nat → List Resource → List Resource × List DispOp × Nat
  | i, [] => ([], [], i)
  | i, r :: rest =>
    match r.state with
    | RState.added =>
      let p := walk b (i + 1) rest
      (⟨r.key, r.color, RState.unchanged⟩ :: p.1,
       (if i < 8 then [DispOp.Flash i r.color b 2 50, DispOp.Set i r.color b] else []) ++ p.2.1,
       p.2.2)
    | RState.updated =>
      let p := walk b (i + 1) rest
      (⟨r.key, r.color, RState.unchanged⟩ :: p.1,
       (if i < 8 then [DispOp.Flash i r.color b 2 50, DispOp.Set i r.color b] else []) ++ p.2.1,
       p.2.2)
    | RState.deleted =>
      let p := walk b i rest
      (p.1,
       (if i < 8 then [DispOp.Flash i r.color b 2 50] else []) ++ p.2.1,
       p.2.2)
    | RState.unchanged =>
      let p := walk b (i + 1) rest
      (r :: p.1,
       (if i < 8 then [DispOp.Set i r.color b] else []) ++ p.2.1,
       p.2.2)

/-- The trailing clear loop of `updateBlinkt` (controller.go lines 158-160):
`for ; i < 8; i++ { o.blinkt.Set(i, blinkt.Off, 0) }`. -/
def clearFrom (i : Nat) : List DispOp :=
  (List.range' i (8 - i)).map (fun j => DispOp.Set j Off 0)

/-- `updateBlinkt` (controller.go lines 133-162): walk the list from index 0,
clear the remaining slots up to 7, and commit with `Show()`. -/
def updateBlinkt (b : ℚ) (l : List Resource) : List Resource × List DispOp :=
  let p := walk b 0 l
  (p.1, p.2.1 ++ clearFrom p.2.2 ++ [DispOp.Show])

/-- `getResource` (controller.go lines 124-131): linear scan for the first
record whose key matches; `none` models the Go `nil` return. -/
def getResource (key : String) (l : List Resource) : Option Resource :=
  l.find? (fun r => r.key == key)

/-- In-place mutation through the pointer returned by `getResource`:
update the first record whose key matches. -/
def updateFirst (key : String) (f : Resource → Resource) : List Resource → List Resource
  | [] => []
  | r :: rest =>
    if r.key == key then f r :: rest else r :: updateFirst key f rest

/-- `AddFunc` (controller.go lines 73-82): unconditionally append
`resource{key, color, added}` and render. -/
def AddFunc (b : ℚ) (key color : String) (l : List Resource) :
    List Resource × List DispOp :=
  updateBlinkt b (l ++ [⟨key, color, RState.added⟩])

/-- `UpdateFunc` (controller.go lines 83-96): look the key up; on a miss the Go
code dereferences the nil pointer (`r.color`) and panics, modelled as `none`.
If the color is unchanged, return without mutating or rendering; otherwise set
the record's color, set state `updated`, and render. -/
def UpdateFunc (b : ℚ) (key color : String) (l : List Resource) :
    Option (List Resource × List DispOp) :=
  match getResource key l with
  | none => none
  | some r =>
    if color = r.color then some (l, [])
    else some (updateBlinkt b
      (updateFirst key (fun x => ⟨x.key, color, RState.updated⟩) l))

/-- `DeleteFunc` (controller.go lines 97-105): look the key up; on a miss the Go
code dereferences the nil pointer (`r.key` in the log call) and panics, modelled
as `none`.  Otherwise set state `deleted` and render. -/
def DeleteFunc (b : ℚ) (key : String) (l : List Resource) :
    Option (List Resource × List DispOp) :=
  match getResource key l with
  | none => none
  | some _ =>
    some (updateBlinkt b (updateFirst key (fun x => ⟨x.key, x.color, RState.deleted⟩) l))

/-- One informer event: resource-added, resource-updated or resource-removed. -/
inductive Event where
  | add : String → String → Event
  | update : String → String → Event
  | delete : String → Event
deriving DecidableEq, Repr

/-- Apply one event handler to the tracked collection, keeping only the
resulting collection (`none` = the handler panicked). -/
def applyEvent (b : ℚ) (l : List Resource) : Event → Option (List Resource)
  | Event.add k c => some (AddFunc b k c l).1
  | Event.update k c => (UpdateFunc b k c l).map (fun p => p.1)
  | Event.delete k => (DeleteFunc b k l).map (fun p => p.1)

/-- Run a sequence of events against the tracker, starting from `l`. -/
def runEvents (b : ℚ) (l : List Resource) : List Event → Option (List Resource)
  | [] => some l
  | e :: es =>
    match applyEvent b l e with
    | none => none
    | some l2 => runEvents b l2 es

/-- A run is valid when every add event carries a key that is not currently
tracked (the informer's guarantee: `AddFunc` fires only for objects newly added
to its store) and every update/delete event finds its key (no panic). -/
def validRun (b : ℚ) (l : List Resource) : List Event → Bool
  | [] => true
  | Event.add k c :: es =>
    l.all (fun r => r.key != k) && validRun b (AddFunc b k c l).1 es
  | Event.update k c :: es =>
    match UpdateFunc b k c l with
    | none => false
    | some p => validRun b p.1 es
  | Event.delete k :: es =>
    match DeleteFunc b k l with
    | none => false
    | some p => validRun b p.1 es

/-- Rendering resets a record's state to `unchanged` and keeps key and color. -/
def resetState (r : Resource) : Resource :=
  ⟨r.key, r.color, RState.unchanged⟩

/-! ## Lemmas about the render walk -/

theorem walk_nil (b : ℚ) (i : Nat) : walk b i [] = ([], [], i) := rfl

theorem walk_cons_added (b : ℚ) (i : Nat) (r : Resource) (rest : List Resource)
    (h : r.state = RState.added) :
    walk b i (r :: rest) =
      (⟨r.key, r.color, RState.unchanged⟩ :: (walk b (i + 1) rest).1,
       (if i < 8 then [DispOp.Flash i r.color b 2 50, DispOp.Set i r.color b] else [])
         ++ (walk b (i + 1) rest).2.1,
       (walk b (i + 1) rest).2.2) := by
  rw [walk, h]

theorem walk_cons_updated (b : ℚ) (i : Nat) (r : Resource) (rest : List Resource)
    (h : r.state = RState.updated) :
    walk b i (r :: rest) =
      (⟨r.key, r.color, RState.unchanged⟩ :: (walk b (i + 1) rest).1,
       (if i < 8 then [DispOp.Flash i r.color b 2 50, DispOp.Set i r.color b] else [])
         ++ (walk b (i + 1) rest).2.1,
       (walk b (i + 1) rest).2.2) := by
  rw [walk, h]

theorem walk_cons_deleted (b : ℚ) (i : Nat) (r : Resource) (rest : List Resource)
    (h : r.state = RState.deleted) :
    walk b i (r :: rest) =
      ((walk b i rest).1,
       (if i < 8 then [DispOp.Flash i r.color b 2 50] else []) ++ (walk b i rest).2.1,
       (walk b i rest).2.2) := by
  rw [walk, h]

theorem walk_cons_unchanged (b : ℚ) (i : Nat) (r : Resource) (rest : List Resource)
    (h : r.state = RState.unchanged) :
    walk b i (r :: rest) =
      (r :: (walk b (i + 1) rest).1,
       (if i < 8 then [DispOp.Set i r.color b] else []) ++ (walk b (i + 1) rest).2.1,
       (walk b (i + 1) rest).2.2) := by
  rw [walk, h]

/-- The walk is compositional: walking `l1 ++ l2` walks `l1`, then walks `l2`
starting from the index where `l1` left off. -/
theorem walk_append (b : ℚ) (l1 l2 : List Resource) : ∀ i : Nat,
    walk b i (l1 ++ l2) =
      ((walk b i l1).1 ++ (walk b (walk b i l1).2.2 l2).1,
       (walk b i l1).2.1 ++ (walk b (walk b i l1).2.2 l2).2.1,
       (walk b (walk b i l1).2.2 l2).2.2) := by
  induction l1 with
  | nil => intro i; simp [walk_nil]
  | cons r rest ih =>
    intro i
    rcases hs : r.state with _ | _ | _ | _
    · rw [List.cons_append, walk_cons_added b i r (rest ++ l2) hs,
        walk_cons_added b i r rest hs, ih (i + 1)]
      simp [List.append_assoc]
    · rw [List.cons_append, walk_cons_updated b i r (rest ++ l2) hs,
        walk_cons_updated b i r rest hs, ih (i + 1)]
      simp [List.append_assoc]
    · rw [List.cons_append, walk_cons_deleted b i r (rest ++ l2) hs,
        walk_cons_deleted b i r rest hs, ih i]
      simp [List.append_assoc]
    · rw [List.cons_append, walk_cons_unchanged b i r (rest ++ l2) hs,
        walk_cons_unchanged b i r rest hs, ih (i + 1)]
      simp [List.append_assoc]

/-- The final index of the walk is the starting index plus the number of
surviving records. -/
theorem walk_finalIdx (b : ℚ) (l : List Resource) : ∀ i : Nat,
    (walk b i l).2.2 = i + (walk b i l).1.length := by
  induction l with
  | nil => intro i; simp [walk_nil]
  | cons r rest ih =>
    intro i
    rcases hs : r.state with _ | _ | _ | _
    · rw [walk_cons_added b i r rest hs]; simp [ih (i + 1)]; omega
    · rw [walk_cons_updated b i r rest hs]; simp [ih (i + 1)]; omega
    · rw [walk_cons_deleted b i r rest hs]; simp [ih i]
    · rw [walk_cons_unchanged b i r rest hs]; simp [ih (i + 1)]; omega

/-- On a list with no `deleted` record, the walk keeps every record (with its
state reset) and ends at `i + l.length`. -/
theorem walk_noDeleted (b : ℚ) (l : List Resource)
    (h : ∀ r ∈ l, r.state ≠ RState.deleted) : ∀ i : Nat,
    (walk b i l).1 = l.map resetState ∧ (walk b i l).2.2 = i + l.length := by
  induction l with
  | nil => intro i; simp [walk_nil]
  | cons r rest ih =>
    intro i
    have hrest : ∀ x ∈ rest, x.state ≠ RState.deleted := fun x hx =>
      h x (List.mem_cons_of_mem r hx)
    rcases hs : r.state with _ | _ | _ | _
    · rw [walk_cons_added b i r rest hs]
      have := ih hrest (i + 1)
      simp [resetState, this.1, this.2]; omega
    · rw [walk_cons_updated b i r rest hs]
      have := ih hrest (i + 1)
      simp [resetState, this.1, this.2]; omega
    · exact absurd hs (h r (List.mem_cons_self r rest))
    · rw [walk_cons_unchanged b i r rest hs]
      have := ih hrest (i + 1)
      have hr : resetState r = r := by
        simp [resetState, ← hs]
      simp [this.1, this.2, hr]; omega

/-- Every record surviving the walk has state `unchanged`. -/
theorem walk_state (b : ℚ) (l : List Resource) : ∀ i : Nat,
    ∀ r ∈ (walk b i l).1, r.state = RState.unchanged := by
  induction l with
  | nil => intro i r hr; simp [walk_nil] at hr
  | cons r rest ih =>
    intro i x hx
    rcases hs : r.state with _ | _ | _ | _
    · rw [walk_cons_added b i r rest hs] at hx
      rcases List.mem_cons.mp hx with h | h
      · rw [h]
      · exact ih (i + 1) x h
    · rw [walk_cons_updated b i r rest hs] at hx
      rcases List.mem_cons.mp hx with h | h
      · rw [h]
      · exact ih (i + 1) x h
    · rw [walk_cons_deleted b i r rest hs] at hx
      exact ih i x hx
    · rw [walk_cons_unchanged b i r rest hs] at hx
      rcases List.mem_cons.mp hx with h | h
      · rw [h, hs]
      · exact ih (i + 1) x h

/-- A walk over an all-`unchanged` list leaves the list intact. -/
theorem walk_allUnchanged (b : ℚ) (l : List Resource)
    (h : ∀ r ∈ l, r.state = RState.unchanged) : ∀ i : Nat,
    (walk b i l).1 = l := by
  induction l with
  | nil => intro i; simp [walk_nil]
  | cons r rest ih =>
    intro i
    rw [walk_cons_unchanged b i r rest (h r (List.mem_cons_self r rest))]
    simp [ih (fun x hx => h x (List.mem_cons_of_mem r hx)) (i + 1)]

/-- The keys surviving the walk form a sublist of the original keys. -/
theorem walk_keys_sublist (b : ℚ) (l : List Resource) : ∀ i : Nat,
    ((walk b i l).1.map Resource.key).Sublist (l.map Resource.key) := by
  induction l with
  | nil => intro i; simp [walk_nil]
  | cons r rest ih =>
    intro i
    rcases hs : r.state with _ | _ | _ | _
    · rw [walk_cons_added b i r rest hs]
      simpa using List.Sublist.cons₂ r.key (ih (i + 1))
    · rw [walk_cons_updated b i r rest hs]
      simpa using List.Sublist.cons₂ r.key (ih (i + 1))
    · rw [walk_cons_deleted b i r rest hs]
      exact List.Sublist.cons r.key (ih i)
    · rw [walk_cons_unchanged b i r rest hs]
      exact List.Sublist.cons₂ r.key (ih (i + 1))

/-- When keys are unique, `getResource` finds exactly the member record with
the requested key. -/
theorem getResource_mem (k : String) (l : List Resource) (r : Resource)
    (hnd : (l.map Resource.key).Nodup) (hr : r ∈ l) (hk : r.key = k) :
    getResource k l = some r := by
  induction l with
  | nil => simp at hr
  | cons x rest ih =>
    simp only [List.map_cons, List.nodup_cons] at hnd
    rcases List.mem_cons.mp hr with h | h
    · subst h
      simpa [getResource] using
        List.find?_cons_of_pos (p := fun r => r.key == k) rest (by simpa using hk)
    · have hxk : x.key ≠ k := by
        intro hc
        apply hnd.1
        rw [hc, ← hk]
        exact List.mem_map_of_mem Resource.key h
      have h2 := ih hnd.2 h
      simp only [getResource] at h2 ⊢
      rw [List.find?_cons_of_neg rest (by simpa using hxk)]
      exact h2

/-! ## Claim theorems -/

/-- C2: an update or removal event whose key has no matching record fails
(the Go handler dereferences the nil `getResource` result and panics, embedded
as `none`); it never proceeds as if the record existed. -/
theorem update_delete_miss_panics (b : ℚ) (k c : String) (l : List Resource)
    (h : ∀ r ∈ l, r.key ≠ k) :
    UpdateFunc b k c l = none ∧ DeleteFunc b k l = none := by
  have hg : getResource k l = none := by
    apply List.find?_eq_none.mpr
    intro r hr
    simpa using h r hr
  exact ⟨by simp [UpdateFunc, hg], by simp [DeleteFunc, hg]⟩

/-- Witness for C2 on a concrete one-record collection and a missing key. -/
theorem update_delete_miss_panics_witness :
    UpdateFunc 1 "a" "red" [⟨"b", "blue", RState.unchanged⟩] = none ∧
      DeleteFunc 1 "a" [⟨"b", "blue", RState.unchanged⟩] = none :=
  update_delete_miss_panics 1 "a" "red" [⟨"b", "blue", RState.unchanged⟩] (by decide)

/-- C4: an update event whose key matches an existing record with the same
stored color changes nothing: the collection is returned unmodified and no
display operation (no render pass) happens. -/
theorem noop_update_same_color (b : ℚ) (k c : String) (l : List Resource)
    (r : Resource) (hnd : (l.map Resource.key).Nodup) (hr : r ∈ l)
    (hk : r.key = k) (hc : r.color = c) :
    UpdateFunc b k c l = some (l, []) := by
  simp [UpdateFunc, getResource_mem k l r hnd hr hk, hc]

/-- Witness for C4: observing key `a` again with its current color `red`
leaves the collection alone and renders nothing. -/
theorem noop_update_same_color_witness :
    UpdateFunc 1 "a" "red" [⟨"a", "red", RState.unchanged⟩] =
      some ([⟨"a", "red", RState.unchanged⟩], []) :=
  noop_update_same_color 1 "a" "red" [⟨"a", "red", RState.unchanged⟩]
    ⟨"a", "red", RState.unchanged⟩ (by decide) (by decide) rfl rfl

/-- C6: after the render walk, every slot index from the final collection
length up to 7 is set to `Off` with zero brightness (so an empty collection
clears all eight slots). -/
theorem clear_remaining_slots (b : ℚ) (l : List Resource) (j : Nat)
    (h1 : (updateBlinkt b l).1.length ≤ j) (h2 : j < 8) :
    DispOp.Set j Off 0 ∈ (updateBlinkt b l).2 := by
  have hfin : (walk b 0 l).2.2 = (walk b 0 l).1.length := by
    simpa using walk_finalIdx b l 0
  have h1' : (walk b 0 l).2.2 ≤ j := by
    rw [hfin]
    simpa [updateBlinkt] using h1
  have hmem : DispOp.Set j Off 0 ∈ clearFrom (walk b 0 l).2.2 := by
    rw [clearFrom]
    apply List.mem_map.mpr
    refine ⟨j, ?_, rfl⟩
    apply List.mem_range'_1.mpr
    exact ⟨h1', by omega⟩
  show DispOp.Set j Off 0 ∈ (walk b 0 l).2.1 ++ clearFrom (walk b 0 l).2.2 ++ [DispOp.Show]
  simp only [List.append_assoc, List.mem_append]
  exact Or.inr (Or.inl hmem)

/-- Witness for C6: rendering the empty collection emits `Set 0 Off 0`. -/
theorem clear_remaining_slots_witness :
    DispOp.Set 0 Off 0 ∈ (updateBlinkt 1 []).2 :=
  clear_remaining_slots 1 [] 0 (by decide) (by decide)

/-- C8: on an all-`steady` collection a render pass changes nothing, so running
it twice produces the same frame (and the same collection) both times. -/
theorem render_idempotent_steady (b : ℚ) (l : List Resource)
    (h : ∀ r ∈ l, r.state = RState.unchanged) :
    (updateBlinkt b l).1 = l ∧
      updateBlinkt b (updateBlinkt b l).1 = updateBlinkt b l := by
  have h1 : (updateBlinkt b l).1 = l := by
    simpa [updateBlinkt] using walk_allUnchanged b l h 0
  exact ⟨h1, by rw [h1]⟩

/-- Witness for C8 on a concrete steady singleton. -/
theorem render_idempotent_steady_witness :
    (updateBlinkt 1 [⟨"a", "red", RState.unchanged⟩]).1 =
        [⟨"a", "red", RState.unchanged⟩] ∧
      updateBlinkt 1 (updateBlinkt 1 [⟨"a", "red", RState.unchanged⟩]).1 =
        updateBlinkt 1 [⟨"a", "red", RState.unchanged⟩] :=
  render_idempotent_steady 1 [⟨"a", "red", RState.unchanged⟩] (by decide)

/-- C9: after any render pass, every record remaining in the collection —
at any position, including 8 and beyond — has state `unchanged` (steady);
in particular no `deleted` record survives. -/
theorem post_render_all_steady (b : ℚ) (l : List Resource) (r : Resource)
    (h : r ∈ (updateBlinkt b l).1) : r.state = RState.unchanged :=
  walk_state b l 0 r (by simpa [updateBlinkt] using h)

/-- Witness for C9: the rendered copy of a freshly added record is steady. -/
theorem post_render_all_steady_witness :
    (⟨"a", "red", RState.unchanged⟩ : Resource).state = RState.unchanged :=
  post_render_all_steady 1 [⟨"a", "red", RState.added⟩]
    ⟨"a", "red", RState.unchanged⟩ (by decide)

/-- C3: rendering a collection whose only `deleted` record sits between the
deletion-free segments `l1` and `l2` removes exactly that record, so every
record after it shifts one position earlier with the order preserved, and the
walk continues over `l2` starting at index `l1.length` (the walk index is not
advanced past the deletion). -/
theorem removal_compacts (b : ℚ) (l1 l2 : List Resource) (r : Resource)
    (hr : r.state = RState.deleted)
    (h1 : ∀ x ∈ l1, x.state ≠ RState.deleted)
    (h2 : ∀ x ∈ l2, x.state ≠ RState.deleted) :
    (updateBlinkt b (l1 ++ r :: l2)).1 = (l1 ++ l2).map resetState ∧
    (updateBlinkt b (l1 ++ r :: l2)).2 =
      (walk b 0 l1).2.1
        ++ (if l1.length < 8 then [DispOp.Flash l1.length r.color b 2 50] else [])
        ++ (walk b l1.length l2).2.1
        ++ clearFrom (l1.length + l2.length) ++ [DispOp.Show] := by
  have e1 : (walk b 0 l1).2.2 = l1.length := by
    rw [(walk_noDeleted b l1 h1 0).2]
    omega
  have happ := walk_append b l1 (r :: l2) 0
  rw [e1, walk_cons_deleted b l1.length r l2 hr] at happ
  constructor
  · simp only [updateBlinkt, happ]
    rw [(walk_noDeleted b l1 h1 0).1, (walk_noDeleted b l2 h2 l1.length).1,
      List.map_append]
  · simp only [updateBlinkt, happ]
    rw [(walk_noDeleted b l2 h2 l1.length).2]
    simp [List.append_assoc]

/-- Witness for C3 on a concrete three-record collection with the middle
record deleted. -/
theorem removal_compacts_witness :
    (updateBlinkt 1 (([⟨"a", "red", RState.unchanged⟩] : List Resource)
        ++ (⟨"b", "blue", RState.deleted⟩ : Resource)
          :: [⟨"c", "green", RState.unchanged⟩])).1 =
      (([⟨"a", "red", RState.unchanged⟩] : List Resource)
        ++ ([⟨"c", "green", RState.unchanged⟩] : List Resource)).map resetState ∧
    (updateBlinkt 1 (([⟨"a", "red", RState.unchanged⟩] : List Resource)
        ++ (⟨"b", "blue", RState.deleted⟩ : Resource)
          :: [⟨"c", "green", RState.unchanged⟩])).2 =
      (walk 1 0 [⟨"a", "red", RState.unchanged⟩]).2.1
        ++ (if ([⟨"a", "red", RState.unchanged⟩] : List Resource).length < 8 then
              [DispOp.Flash ([⟨"a", "red", RState.unchanged⟩] : List Resource).length
                "blue" 1 2 50]
            else [])
        ++ (walk 1 ([⟨"a", "red", RState.unchanged⟩] : List Resource).length
              [⟨"c", "green", RState.unchanged⟩]).2.1
        ++ clearFrom (([⟨"a", "red", RState.unchanged⟩] : List Resource).length
              + ([⟨"c", "green", RState.unchanged⟩] : List Resource).length)
        ++ [DispOp.Show] :=
  removal_compacts 1 [⟨"a", "red", RState.unchanged⟩] [⟨"c", "green", RState.unchanged⟩]
    (⟨"b", "blue", RState.deleted⟩ : Resource) rfl (by decide) (by decide)

/-- C5: a `seen`/`changed` record rendered at index `i < 8` (here `i` is
`l1.length`, its walk position after the deletion-free segment `l1`) produces a
flash of slot `i` in its color with 2 cycles at 50ms, immediately followed by a
steady `Set` of the same slot and color; afterwards the record's state is
`unchanged`. -/
theorem dirty_record_flash_then_set (b : ℚ) (l1 l2 : List Resource) (r : Resource)
    (h1 : ∀ x ∈ l1, x.state ≠ RState.deleted)
    (h2 : r.state = RState.added ∨ r.state = RState.updated)
    (h3 : l1.length < 8) :
    (updateBlinkt b (l1 ++ r :: l2)).1[l1.length]? =
        some ⟨r.key, r.color, RState.unchanged⟩ ∧
    ∃ o1 o2, (updateBlinkt b (l1 ++ r :: l2)).2 =
      o1 ++ DispOp.Flash l1.length r.color b 2 50
        :: DispOp.Set l1.length r.color b :: o2 := by
  have e1 : (walk b 0 l1).2.2 = l1.length := by
    rw [(walk_noDeleted b l1 h1 0).2]
    omega
  have happ := walk_append b l1 (r :: l2) 0
  rw [e1] at happ
  have hstep : walk b l1.length (r :: l2) =
      (⟨r.key, r.color, RState.unchanged⟩ :: (walk b (l1.length + 1) l2).1,
       [DispOp.Flash l1.length r.color b 2 50, DispOp.Set l1.length r.color b]
         ++ (walk b (l1.length + 1) l2).2.1,
       (walk b (l1.length + 1) l2).2.2) := by
    rcases h2 with h | h
    · rw [walk_cons_added b l1.length r l2 h, if_pos h3]
    · rw [walk_cons_updated b l1.length r l2 h, if_pos h3]
  rw [hstep] at happ
  constructor
  · simp only [updateBlinkt, happ]
    rw [(walk_noDeleted b l1 h1 0).1]
    rw [List.getElem?_append_right (by simp)]
    simp
  · refine ⟨(walk b 0 l1).2.1,
      (walk b (l1.length + 1) l2).2.1
        ++ clearFrom (walk b (l1.length + 1) l2).2.2 ++ [DispOp.Show], ?_⟩
    simp only [updateBlinkt, happ]
    simp [List.append_assoc]

/-- Witness for C5 on a freshly added single record. -/
theorem dirty_record_flash_then_set_witness :
    (updateBlinkt 1 (([] : List Resource)
        ++ (⟨"a", "red", RState.added⟩ : Resource) :: [])).1[(0 : Nat)]? =
        some ⟨"a", "red", RState.unchanged⟩ ∧
    ∃ o1 o2, (updateBlinkt 1 (([] : List Resource)
        ++ (⟨"a", "red", RState.added⟩ : Resource) :: [])).2 =
      o1 ++ DispOp.Flash 0 "red" 1 2 50 :: DispOp.Set 0 "red" 1 :: o2 :=
  dirty_record_flash_then_set 1 [] [] (⟨"a", "red", RState.added⟩ : Resource)
    (by decide) (Or.inl rfl) (by decide)

/-- C7: with 8 steady records on the display, observing a 9th key appends it to
the collection (state reset to `unchanged` by the render) while the emitted
frame is identical to the previous one: the 9th record causes no display
operation. -/
theorem ninth_resource_invisible (b : ℚ) (l : List Resource) (k c : String)
    (h1 : l.length = 8) (h2 : ∀ r ∈ l, r.state = RState.unchanged) :
    AddFunc b k c l = (l ++ [⟨k, c, RState.unchanged⟩], (updateBlinkt b l).2) := by
  have hkeep : (walk b 0 l).1 = l := walk_allUnchanged b l h2 0
  have e1 : (walk b 0 l).2.2 = 8 := by
    rw [walk_finalIdx b l 0, hkeep]
    omega
  have happ := walk_append b l [⟨k, c, RState.added⟩] 0
  rw [e1, walk_cons_added b 8 ⟨k, c, RState.added⟩ [] rfl, if_neg (by omega)] at happ
  rw [AddFunc]
  simp only [updateBlinkt, happ, walk_nil]
  rw [hkeep]
  have hc9 : clearFrom 9 = [] := rfl
  have hc8 : clearFrom 8 = [] := rfl
  simp [hc9, hc8, e1]

/-- Witness for C7: a full display of 8 steady records plus a 9th key. -/
theorem ninth_resource_invisible_witness :
    AddFunc 1 "i" "white"
      [⟨"a", "red", RState.unchanged⟩, ⟨"b", "red", RState.unchanged⟩,
       ⟨"c", "red", RState.unchanged⟩, ⟨"d", "red", RState.unchanged⟩,
       ⟨"e", "red", RState.unchanged⟩, ⟨"f", "red", RState.unchanged⟩,
       ⟨"g", "red", RState.unchanged⟩, ⟨"h", "red", RState.unchanged⟩] =
      ([⟨"a", "red", RState.unchanged⟩, ⟨"b", "red", RState.unchanged⟩,
        ⟨"c", "red", RState.unchanged⟩, ⟨"d", "red", RState.unchanged⟩,
        ⟨"e", "red", RState.unchanged⟩, ⟨"f", "red", RState.unchanged⟩,
        ⟨"g", "red", RState.unchanged⟩, ⟨"h", "red", RState.unchanged⟩]
          ++ [⟨"i", "white", RState.unchanged⟩],
       (updateBlinkt 1
         [⟨"a", "red", RState.unchanged⟩, ⟨"b", "red", RState.unchanged⟩,
          ⟨"c", "red", RState.unchanged⟩, ⟨"d", "red", RState.unchanged⟩,
          ⟨"e", "red", RState.unchanged⟩, ⟨"f", "red", RState.unchanged⟩,
          ⟨"g", "red", RState.unchanged⟩, ⟨"h", "red", RState.unchanged⟩]).2) :=
  ninth_resource_invisible 1
    [⟨"a", "red", RState.unchanged⟩, ⟨"b", "red", RState.unchanged⟩,
     ⟨"c", "red", RState.unchanged⟩, ⟨"d", "red", RState.unchanged⟩,
     ⟨"e", "red", RState.unchanged⟩, ⟨"f", "red", RState.unchanged⟩,
     ⟨"g", "red", RState.unchanged⟩, ⟨"h", "red", RState.unchanged⟩]
    "i" "white" rfl (by decide)

/-- C10: a `deleted` record whose walk position is at least 8 (it follows the
deletion-free segment `l1` of length ≥ 8) is removed from the collection
without any display operation: the render is indistinguishable from rendering
the collection without that record. -/
theorem invisible_removal_silent (b : ℚ) (l1 l2 : List Resource) (r : Resource)
    (h1 : ∀ x ∈ l1, x.state ≠ RState.deleted)
    (h2 : 8 ≤ l1.length)
    (h3 : r.state = RState.deleted) :
    updateBlinkt b (l1 ++ r :: l2) = updateBlinkt b (l1 ++ l2) := by
  have e1 : (walk b 0 l1).2.2 = l1.length := by
    rw [(walk_noDeleted b l1 h1 0).2]
    omega
  have happ1 := walk_append b l1 (r :: l2) 0
  have happ2 := walk_append b l1 l2 0
  rw [e1] at happ1 happ2
  rw [walk_cons_deleted b l1.length r l2 h3, if_neg (by omega)] at happ1
  simp only [updateBlinkt, happ1, happ2]
  simp

/-- Witness for C10: a 9th, never-rendered record marked deleted disappears
with a frame identical to the one without it. -/
theorem invisible_removal_silent_witness :
    updateBlinkt 1
      ([⟨"a", "red", RState.unchanged⟩, ⟨"b", "red", RState.unchanged⟩,
        ⟨"c", "red", RState.unchanged⟩, ⟨"d", "red", RState.unchanged⟩,
        ⟨"e", "red", RState.unchanged⟩, ⟨"f", "red", RState.unchanged⟩,
        ⟨"g", "red", RState.unchanged⟩, ⟨"h", "red", RState.unchanged⟩]
        ++ (⟨"i", "white", RState.deleted⟩ : Resource) :: []) =
    updateBlinkt 1
      ([⟨"a", "red", RState.unchanged⟩, ⟨"b", "red", RState.unchanged⟩,
        ⟨"c", "red", RState.unchanged⟩, ⟨"d", "red", RState.unchanged⟩,
        ⟨"e", "red", RState.unchanged⟩, ⟨"f", "red", RState.unchanged⟩,
        ⟨"g", "red", RState.unchanged⟩, ⟨"h", "red", RState.unchanged⟩] ++ []) :=
  invisible_removal_silent 1
    [⟨"a", "red", RState.unchanged⟩, ⟨"b", "red", RState.unchanged⟩,
     ⟨"c", "red", RState.unchanged⟩, ⟨"d", "red", RState.unchanged⟩,
     ⟨"e", "red", RState.unchanged⟩, ⟨"f", "red", RState.unchanged⟩,
     ⟨"g", "red", RState.unchanged⟩, ⟨"h", "red", RState.unchanged⟩]
    [] ⟨"i", "white", RState.deleted⟩ (by decide) (by decide) rfl

/-! ## Key uniqueness across event sequences (C1) -/

/-- A key-preserving in-place mutation leaves the key sequence intact. -/
theorem updateFirst_map_key (k : String) (f : Resource → Resource)
    (hf : ∀ r, (f r).key = r.key) : ∀ l : List Resource,
    (updateFirst k f l).map Resource.key = l.map Resource.key := by
  intro l
  induction l with
  | nil => rfl
  | cons x rest ih =>
    by_cases h : x.key == k
    · simp [updateFirst, h, hf]
    · simp [updateFirst, h, ih]

/-- A render pass only ever drops records, so its key sequence is a sublist of
the input's. -/
theorem updateBlinkt_keys_sublist (b : ℚ) (l : List Resource) :
    ((updateBlinkt b l).1.map Resource.key).Sublist (l.map Resource.key) := by
  simpa [updateBlinkt] using walk_keys_sublist b l 0

/-- `AddFunc` appends one key and renders. -/
theorem AddFunc_keys_sublist (b : ℚ) (k c : String) (l : List Resource) :
    ((AddFunc b k c l).1.map Resource.key).Sublist (l.map Resource.key ++ [k]) := by
  have h := updateBlinkt_keys_sublist b (l ++ [⟨k, c, RState.added⟩])
  rw [List.map_append] at h
  exact h

/-- A successful `UpdateFunc` never introduces a key. -/
theorem UpdateFunc_keys_sublist (b : ℚ) (k c : String) (l : List Resource)
    (p : List Resource × List DispOp) (h : UpdateFunc b k c l = some p) :
    (p.1.map Resource.key).Sublist (l.map Resource.key) := by
  cases hg : getResource k l with
  | none => simp [UpdateFunc, hg] at h
  | some r =>
    simp only [UpdateFunc, hg] at h
    by_cases hc : c = r.color
    · rw [if_pos hc] at h
      cases h
      exact List.Sublist.refl _
    · rw [if_neg hc] at h
      cases h
      have hs := updateBlinkt_keys_sublist b
        (updateFirst k (fun x => ⟨x.key, c, RState.updated⟩) l)
      rwa [updateFirst_map_key k (fun x => ⟨x.key, c, RState.updated⟩)
        (fun x => rfl) l] at hs

/-- A successful `DeleteFunc` never introduces a key. -/
theorem DeleteFunc_keys_sublist (b : ℚ) (k : String) (l : List Resource)
    (p : List Resource × List DispOp) (h : DeleteFunc b k l = some p) :
    (p.1.map Resource.key).Sublist (l.map Resource.key) := by
  cases hg : getResource k l with
  | none => simp [DeleteFunc, hg] at h
  | some r =>
    simp only [DeleteFunc, hg] at h
    cases h
    have hs := updateBlinkt_keys_sublist b
      (updateFirst k (fun x => ⟨x.key, x.color, RState.deleted⟩) l)
    rwa [updateFirst_map_key k (fun x => ⟨x.key, x.color, RState.deleted⟩)
      (fun x => rfl) l] at hs

/-- Key uniqueness is preserved along any valid run, from any unique-key
starting collection. -/
theorem observe_keys_nodup_aux (b : ℚ) (es : List Event) :
    ∀ l, (l.map Resource.key).Nodup → validRun b l es = true →
      ∀ l2, runEvents b l es = some l2 → (l2.map Resource.key).Nodup := by
  induction es with
  | nil =>
    intro l h _ l2 hr
    simp only [runEvents] at hr
    cases hr
    exact h
  | cons e rest ih =>
    intro l h hv l2 hr
    cases e with
    | add k c =>
      simp only [validRun, Bool.and_eq_true] at hv
      simp only [runEvents, applyEvent] at hr
      refine ih (AddFunc b k c l).1 ?_ hv.2 l2 hr
      have hk : k ∉ l.map Resource.key := by
        intro hc
        rcases List.mem_map.mp hc with ⟨r, hrm, hrk⟩
        have := List.all_eq_true.mp hv.1 r hrm
        simp [hrk] at this
      refine List.Sublist.nodup (AddFunc_keys_sublist b k c l) ?_
      refine h.append (List.nodup_singleton k) ?_
      intro a ha hb
      rw [List.mem_singleton.mp hb] at ha
      exact hk ha
    | update k c =>
      cases hu : UpdateFunc b k c l with
      | none => simp [validRun, hu] at hv
      | some p =>
        simp only [validRun, hu] at hv
        simp only [runEvents, applyEvent, hu, Option.map_some'] at hr
        exact ih p.1 (List.Sublist.nodup (UpdateFunc_keys_sublist b k c l p hu) h)
          hv l2 hr
    | delete k =>
      cases hu : DeleteFunc b k l with
      | none => simp [validRun, hu] at hv
      | some p =>
        simp only [validRun, hu] at hv
        simp only [runEvents, applyEvent, hu, Option.map_some'] at hr
        exact ih p.1 (List.Sublist.nodup (DeleteFunc_keys_sublist b k l p hu) h)
          hv l2 hr

/-- C1 (amended): for every sequence of add/update/delete events starting from
the empty tracker in which each add event carries a currently-untracked key
(the informer's contract) and each update/delete finds its key, the resulting
collection never contains two records with the same key. -/
theorem observe_keys_nodup (b : ℚ) (es : List Event) (l2 : List Resource)
    (h1 : validRun b [] es = true) (h2 : runEvents b [] es = some l2) :
    (l2.map Resource.key).Nodup :=
  observe_keys_nodup_aux b es [] (by simp) h1 l2 h2

/-- Witness for the amended C1 on a concrete add/update/delete run. -/
theorem observe_keys_nodup_witness :
    (([] : List Resource).map Resource.key).Nodup :=
  observe_keys_nodup 1
    [Event.add "a" "red", Event.update "a" "blue", Event.delete "a"] []
    (by decide) (by decide)

/-- C1 counterexample: the code's add handler appends unconditionally, so two
raw add events with the same key leave two records keyed `"a"` in the
collection — the claim fails for arbitrary event sequences. -/
theorem observe_keys_nodup_counterexample :
    runEvents 1 [] [Event.add "a" "red", Event.add "a" "red"] =
      some [⟨"a", "red", RState.unchanged⟩, ⟨"a", "red", RState.unchanged⟩] ∧
    ¬ (([⟨"a", "red", RState.unchanged⟩,
         ⟨"a", "red", RState.unchanged⟩] : List Resource).map Resource.key).Nodup := by
  decide

example : (updateBlinkt 1 []).2 =
    (List.range' 0 8).map (fun j => DispOp.Set j Off 0) ++ [DispOp.Show] := by
  decide

example : (updateBlinkt 1 [⟨"a", "red", RState.added⟩]).1 =
    [⟨"a", "red", RState.unchanged⟩] := by
  decide
